import Mathlib

/-!
Verification development for the `stewi` validation module
(`stewi/validate.py`).  The Python code operates on pandas DataFrames whose
`FlowAmount` column holds IEEE-754 doubles that, in practice, are exact
small decimals together with the special values `inf`, `-inf` and `nan`.
We embed amounts as an extended-rational type `EF` with the IEEE rules for
the special values, records as structures carrying the key columns used by
`validate_inventory`, and each pandas operation (fillna, groupby-sum,
outer merge, row iteration) as an explicit Lean function translated from
the source.
-/

/-- Extended value modelling a double: a finite (exact) value, `+inf`,
`-inf`, or `nan`. -/
inductive EF where
  | fin : ℚ → EF
  | pinf : EF
  | ninf : EF
  | nan : EF
deriving DecidableEq

instance : Inhabited EF := ⟨EF.nan⟩

/-- IEEE addition on `EF` (used by the groupby sum). -/
def EF.add : EF → EF → EF
  | EF.fin a, EF.fin b => EF.fin (a + b)
  | EF.fin _, EF.pinf => EF.pinf
  | EF.fin _, EF.ninf => EF.ninf
  | EF.pinf, EF.fin _ => EF.pinf
  | EF.ninf, EF.fin _ => EF.ninf
  | EF.pinf, EF.pinf => EF.pinf
  | EF.ninf, EF.ninf => EF.ninf
  | EF.pinf, EF.ninf => EF.nan
  | EF.ninf, EF.pinf => EF.nan
  | EF.nan, _ => EF.nan
  | _, EF.nan => EF.nan

/-- IEEE subtraction on `EF` (`amount_y - amount_x` in the source). -/
def EF.sub : EF → EF → EF
  | EF.fin a, EF.fin b => EF.fin (a - b)
  | EF.fin _, EF.pinf => EF.ninf
  | EF.fin _, EF.ninf => EF.pinf
  | EF.pinf, EF.fin _ => EF.pinf
  | EF.ninf, EF.fin _ => EF.ninf
  | EF.pinf, EF.pinf => EF.nan
  | EF.ninf, EF.ninf => EF.nan
  | EF.pinf, EF.ninf => EF.pinf
  | EF.ninf, EF.pinf => EF.ninf
  | EF.nan, _ => EF.nan
  | _, EF.nan => EF.nan

/-- IEEE absolute value on `EF` (`abs(...)` in the source). -/
def EF.abs : EF → EF
  | EF.fin a => EF.fin |a|
  | EF.pinf => EF.pinf
  | EF.ninf => EF.pinf
  | EF.nan => EF.nan

/-- IEEE multiplication on `EF` (`100.0 * ...` in the source). -/
def EF.mul : EF → EF → EF
  | EF.fin a, EF.fin b => EF.fin (a * b)
  | EF.fin a, EF.pinf => if a > 0 then EF.pinf else if a < 0 then EF.ninf else EF.nan
  | EF.fin a, EF.ninf => if a > 0 then EF.ninf else if a < 0 then EF.pinf else EF.nan
  | EF.pinf, EF.fin b => if b > 0 then EF.pinf else if b < 0 then EF.ninf else EF.nan
  | EF.ninf, EF.fin b => if b > 0 then EF.ninf else if b < 0 then EF.pinf else EF.nan
  | EF.pinf, EF.pinf => EF.pinf
  | EF.ninf, EF.ninf => EF.pinf
  | EF.pinf, EF.ninf => EF.ninf
  | EF.ninf, EF.pinf => EF.ninf
  | EF.nan, _ => EF.nan
  | _, EF.nan => EF.nan

/-- IEEE division on `EF` (`... / amount_y` in the source).  Rationals have
no signed zero, so division of a nonzero finite value by (unsigned) zero
follows the `+0.0` rule. -/
def EF.div : EF → EF → EF
  | EF.fin a, EF.fin b =>
      if b = 0 then (if a = 0 then EF.nan else if a > 0 then EF.pinf else EF.ninf)
      else EF.fin (a / b)
  | EF.fin _, EF.pinf => EF.fin 0
  | EF.fin _, EF.ninf => EF.fin 0
  | EF.pinf, EF.fin b => if b ≥ 0 then EF.pinf else EF.ninf
  | EF.ninf, EF.fin b => if b ≥ 0 then EF.ninf else EF.pinf
  | EF.pinf, EF.pinf => EF.nan
  | EF.pinf, EF.ninf => EF.nan
  | EF.ninf, EF.pinf => EF.nan
  | EF.ninf, EF.ninf => EF.nan
  | EF.nan, _ => EF.nan
  | _, EF.nan => EF.nan

/-- `x <= t` for a double `x` and a finite threshold `t`
(false when `x` is `nan`). -/
def EF.leQ : EF → ℚ → Bool
  | EF.fin a, t => decide (a ≤ t)
  | EF.ninf, _ => true
  | EF.pinf, _ => false
  | EF.nan, _ => false

/-- `x > t` for a double `x` and a finite threshold `t`
(false when `x` is `nan`). -/
def EF.gtQ : EF → ℚ → Bool
  | EF.fin a, t => decide (a > t)
  | EF.ninf, _ => false
  | EF.pinf, _ => true
  | EF.nan, _ => false

/-- `fillna(0.0)` on a single value. -/
def fillNan (a : EF) : EF := if a = EF.nan then EF.fin 0 else a

/-- The columns of a standardized record that `validate_inventory` may
group by. -/
inductive Col where
  | FlowName | Compartment | State | FacilityID | SubpartName
deriving DecidableEq

/-- One row of an inventory or reference DataFrame, restricted to the
columns `validate_inventory` reads. -/
structure Record where
  FlowName : String
  Compartment : String
  State : String
  FacilityID : String
  SubpartName : String
  FlowAmount : EF
deriving DecidableEq

/-- Value of one key column of a record. -/
def Record.get (r : Record) : Col → String
  | Col.FlowName => r.FlowName
  | Col.Compartment => r.Compartment
  | Col.State => r.State
  | Col.FacilityID => r.FacilityID
  | Col.SubpartName => r.SubpartName

/-- A grouping key: the tuple of values of the selected key columns. -/
def keyOf (cols : List Col) (r : Record) : List String :=
  cols.map r.get

/-- `df['FlowAmount'] = df['FlowAmount'].fillna(0.0)` applied to one row
(lines 46-47 of the source; this assignment mutates the caller's frame). -/
def fillRecord (r : Record) : Record :=
  { r with FlowAmount := fillNan r.FlowAmount }

/-- Key-column selection of `validate_inventory` (lines 36-45).  `none`
models the fall-through case: `group_by_columns` is never assigned and the
first use raises `UnboundLocalError`. -/
def groupByCols (group_by : String) (hasCompartment : Bool) : Option (List Col) :=
  if group_by = "flow" then
    some ([Col.FlowName] ++ (if hasCompartment then [Col.Compartment] else []))
  else if group_by = "state" then some [Col.State]
  else if group_by = "facility" then some [Col.FlowName, Col.FacilityID]
  else if group_by = "subpart" then some [Col.FlowName, Col.SubpartName]
  else none

/-- Add one amount into a keyed accumulator, summing with an existing row
of the same key (the per-group accumulation of `groupby(...).sum()`). -/
def insertAmt (k : List String) (a : EF) :
    List (List String × EF) → List (List String × EF)
  | [] => [(k, a)]
  | (k', a') :: rest =>
      if k = k' then (k', EF.add a' a) :: rest else (k', a') :: insertAmt k a rest

/-- `df[group_by_columns + ['FlowAmount']].groupby(group_by_columns).sum()`
over already-filled rows: one output row per distinct key, amounts summed
in row order.  (pandas orders groups by key; no claim depends on row
order, so first-occurrence order is used here.) -/
def groupSum (cols : List Col) (rs : List Record) : List (List String × EF) :=
  rs.foldl (fun acc r => insertAmt (keyOf cols r) r.FlowAmount acc) []

/-- Lines 46-51 of the source as one step: fill missing `FlowAmount` with
`0.0`, then group by the key columns and sum. -/
def aggregate (cols : List Col) (rs : List Record) : List (List String × EF) :=
  groupSum cols (rs.map fillRecord)

/-- First amount stored under key `k`, if any. -/
def findAmt (k : List String) : List (List String × EF) → Option EF
  | [] => none
  | (k', a) :: rest => if k = k' then some a else findAmt k rest

/-- `inventory_sums.merge(reference_sums, how='outer', on=group_by_columns)`
for keyed tables with unique keys (as the aggregates are): every left key
with its right match (`nan` when absent), then the unmatched right keys.
(pandas sorts an outer join's keys; no claim depends on row order.) -/
def outerMerge (a b : List (List String × EF)) :
    List (List String × EF × EF) :=
  a.map (fun p => (p.1, p.2, (findAmt p.1 b).getD EF.nan)) ++
    (b.filter (fun p => (findAmt p.1 a).isNone)).map
      (fun p => (p.1, EF.nan, p.2))

/-- Lines 54-56: the outer merge followed by `validation_df.fillna(0.0)`. -/
def mergedFilled (a b : List (List String × EF)) :
    List (List String × EF × EF) :=
  (outerMerge a b).map (fun t => (t.1, fillNan t.2.1, fillNan t.2.2))

/-- What one iteration of the row loop (lines 62-105) appends: the
reported amounts, the percent difference, the conclusion (absent exactly
when no branch of the `if/elif` chain at lines 99-104 fires, i.e. when
`pct_diff` is `nan`), and whether `error_count` was incremented. -/
structure RowWork where
  invAmt : EF
  refAmt : EF
  pct : EF
  concl : Option String
  err : Bool
deriving DecidableEq

/-- The body of the row loop (lines 62-105) for one joined row with
inventory amount `x` and reference amount `y`. -/
def classifyRow (tol : ℚ) (x y : EF) : RowWork :=
  if x = EF.fin 0 then
    if y = EF.fin 0 then
      ⟨x, y, EF.fin 0, some "Both inventory and reference are zero or null", false⟩
    else if y = EF.pinf then
      ⟨x, EF.nan, EF.fin 100,
        some "Reference contains infinity values. Check prior calculations.", false⟩
    else
      ⟨x, y, EF.fin 100, some "Inventory value is zero or null", true⟩
  else if y = EF.fin 0 then
    ⟨x, y, EF.fin 100, some "Reference value is zero or null", false⟩
  else if y = EF.pinf then
    ⟨x, EF.nan, EF.fin 100,
      some "Reference contains infinity values. Check prior calculations.", false⟩
  else
    let pct := EF.div (EF.mul (EF.fin 100) (EF.abs (EF.sub y x))) y
    if pct = EF.fin 0 then ⟨x, y, pct, some "Identical", false⟩
    else if EF.leQ pct tol then ⟨x, y, pct, some "Statistically similar", false⟩
    else if EF.gtQ pct tol then
      ⟨x, y, pct, some "Percent difference exceeds tolerance", true⟩
    else ⟨x, y, pct, none, false⟩

/-- `error_count` after the loop: the number of rows whose branch ran
`error_count += 1`. -/
def errorCount (rows : List (List String × RowWork)) : Nat :=
  rows.countP (fun p => p.2.err)

/-- Result of `validate_inventory`: the classified rows, and the (mutated)
state of the two input frames after the call — the source assigns the
filled `FlowAmount` column back into both caller-owned DataFrames. -/
structure VOut where
  rows : List (List String × RowWork)
  mutatedInv : List Record
  mutatedRef : List Record
deriving DecidableEq

/-- `validate_inventory(inventory_df, reference_df, group_by, tolerance)`
(lines 16-115).  Amounts arrive already parsed to numbers (the string
branch of lines 30-35 is the identity on numeric columns).
`hasCompartment` is the shape test `'Compartment' in inventory_df.keys()`.
`none` models the `UnboundLocalError` raised for an unrecognized
`group_by` before any output row is produced. -/
def validate_inventory (inventory_df reference_df : List Record)
    (group_by : String) (hasCompartment : Bool) (tol : ℚ) : Option VOut :=
  match groupByCols group_by hasCompartment with
  | none => none
  | some cols =>
      let inventory_sums := aggregate cols inventory_df
      let reference_sums := aggregate cols reference_df
      let validation_df := mergedFilled inventory_sums reference_sums
      some
        { rows := validation_df.map (fun t => (t.1, classifyRow tol t.2.1 t.2.2))
          mutatedInv := inventory_df.map fillRecord
          mutatedRef := reference_df.map fillRecord }

/-! ### Helper lemmas for the row classifier -/

/-- On two nonzero finite amounts the row loop computes the percent
difference against the reference amount and classifies it through the
`Identical` / `Statistically similar` / exceeds-tolerance chain (the
final `elif pct_diff > tolerance` is exhaustive for finite values). -/
theorem classifyRow_fin_fin (tol xq yq : ℚ) (hx : xq ≠ 0) (hy : yq ≠ 0) :
    classifyRow tol (EF.fin xq) (EF.fin yq) =
      if 100 * |yq - xq| / yq = 0 then
        ⟨EF.fin xq, EF.fin yq, EF.fin (100 * |yq - xq| / yq), some "Identical", false⟩
      else if 100 * |yq - xq| / yq ≤ tol then
        ⟨EF.fin xq, EF.fin yq, EF.fin (100 * |yq - xq| / yq),
          some "Statistically similar", false⟩
      else
        ⟨EF.fin xq, EF.fin yq, EF.fin (100 * |yq - xq| / yq),
          some "Percent difference exceeds tolerance", true⟩ := by
  have hpct : EF.div (EF.mul (EF.fin 100) (EF.abs (EF.sub (EF.fin yq) (EF.fin xq))))
      (EF.fin yq) = EF.fin (100 * |yq - xq| / yq) := by
    simp [EF.sub, EF.abs, EF.mul, EF.div, hy]
  simp only [classifyRow, hpct]
  rw [if_neg (by simp [hx]), if_neg (by simp [hy]), if_neg (by simp)]
  by_cases h0 : 100 * |yq - xq| / yq = 0
  · simp [h0]
  · by_cases hle : 100 * |yq - xq| / yq ≤ tol
    · simp [h0, hle, EF.leQ]
    · simp [h0, hle, EF.leQ, EF.gtQ, lt_of_not_le hle]

/-! ### Claims about the row classification -/

/-- Claim C2: for a joined row with nonzero inventory amount and finite
nonzero reference amount, `Percent_Difference` is
`100 * |reference - inventory| / reference` (denominator the reference
amount), the conclusion is `Identical` when it is `0`,
`Statistically similar` when it is positive and at most the tolerance
(boundary inclusive), and `Percent difference exceeds tolerance` — with
the row counted as an error — when it exceeds the tolerance. -/
theorem classifyRow_percent_difference_classification (tol xq yq : ℚ)
    (htol : 0 ≤ tol) (hx : xq ≠ 0) (hy : yq ≠ 0) :
    (classifyRow tol (EF.fin xq) (EF.fin yq)).pct = EF.fin (100 * |yq - xq| / yq) ∧
    (100 * |yq - xq| / yq = 0 →
      (classifyRow tol (EF.fin xq) (EF.fin yq)).concl = some "Identical" ∧
      (classifyRow tol (EF.fin xq) (EF.fin yq)).err = false) ∧
    (0 < 100 * |yq - xq| / yq → 100 * |yq - xq| / yq ≤ tol →
      (classifyRow tol (EF.fin xq) (EF.fin yq)).concl = some "Statistically similar" ∧
      (classifyRow tol (EF.fin xq) (EF.fin yq)).err = false) ∧
    (100 * |yq - xq| / yq > tol →
      (classifyRow tol (EF.fin xq) (EF.fin yq)).concl =
        some "Percent difference exceeds tolerance" ∧
      (classifyRow tol (EF.fin xq) (EF.fin yq)).err = true) := by
  rw [classifyRow_fin_fin tol xq yq hx hy]
  refine ⟨?_, ?_, ?_, ?_⟩
  · by_cases h0 : 100 * |yq - xq| / yq = 0
    · simp [h0]
    · by_cases hle : 100 * |yq - xq| / yq ≤ tol <;> simp [h0, hle]
  · intro h0; simp [h0]
  · intro hpos hle; simp [ne_of_gt hpos, hle]
  · intro hgt
    have h0 : 100 * |yq - xq| / yq ≠ 0 := ne_of_gt (lt_of_le_of_lt htol hgt)
    simp [h0, not_le.mpr hgt]

/-- Witness for claim C2 at inventory 95, reference 100, tolerance 5
(the spec's scenario 2: percent difference 5, boundary inclusive). -/
theorem classifyRow_percent_difference_classification_witness :
    (classifyRow 5 (EF.fin 95) (EF.fin 100)).pct =
      EF.fin ((100 : ℚ) * |(100 : ℚ) - 95| / 100) ∧
    ((100 : ℚ) * |(100 : ℚ) - 95| / 100 = 0 →
      (classifyRow 5 (EF.fin 95) (EF.fin 100)).concl = some "Identical" ∧
      (classifyRow 5 (EF.fin 95) (EF.fin 100)).err = false) ∧
    (0 < (100 : ℚ) * |(100 : ℚ) - 95| / 100 →
      (100 : ℚ) * |(100 : ℚ) - 95| / 100 ≤ 5 →
      (classifyRow 5 (EF.fin 95) (EF.fin 100)).concl = some "Statistically similar" ∧
      (classifyRow 5 (EF.fin 95) (EF.fin 100)).err = false) ∧
    ((100 : ℚ) * |(100 : ℚ) - 95| / 100 > 5 →
      (classifyRow 5 (EF.fin 95) (EF.fin 100)).concl =
        some "Percent difference exceeds tolerance" ∧
      (classifyRow 5 (EF.fin 95) (EF.fin 100)).err = true) :=
  classifyRow_percent_difference_classification 5 95 100 (by norm_num)
    (by norm_num) (by norm_num)

/-- Claim C6: a joined row whose reference amount is `+inf` gets the
infinity conclusion, its `Reference_Amount` is reported as `nan`, its
`Percent_Difference` is `100.0`, and it is never counted as an error,
whatever the inventory amount is. -/
theorem classifyRow_ref_infinity (tol : ℚ) (x : EF) :
    classifyRow tol x EF.pinf =
      ⟨x, EF.nan, EF.fin 100,
        some "Reference contains infinity values. Check prior calculations.",
        false⟩ := by
  by_cases hx : x = EF.fin 0 <;> simp [classifyRow, hx]

/-- Counterexample to claim C1: for inventory `SO2 = 50` against an empty
reference (the spec's scenario 5) the produced row has the claimed
conclusion and percent difference, but its error flag is `false` and the
run's `error_count` is `0`, so the row is NOT counted in the validation
error count. -/
theorem validate_ref_zero_error_count_cex :
    validate_inventory [⟨"SO2", "air", "", "", "", EF.fin 50⟩] [] "flow" false 5 =
      some { rows := [(["SO2"], ⟨EF.fin 50, EF.fin 0, EF.fin 100,
               some "Reference value is zero or null", false⟩)],
             mutatedInv := [⟨"SO2", "air", "", "", "", EF.fin 50⟩],
             mutatedRef := [] } ∧
    errorCount [(["SO2"], ⟨EF.fin 50, EF.fin 0, EF.fin 100,
        some "Reference value is zero or null", false⟩)] = 0 := by
  exact ⟨by decide, by decide⟩

/-- Claim C1 as amended: a joined row with nonzero inventory amount and
reference amount `0.0` gets conclusion `Reference value is zero or null`
and `Percent_Difference = 100.0`, but is NOT counted in the validation
error count (the source's `elif amount_y == 0.0` branch never increments
`error_count`). -/
theorem classifyRow_ref_zero (tol : ℚ) (x : EF) (hx : x ≠ EF.fin 0) :
    classifyRow tol x (EF.fin 0) =
      ⟨x, EF.fin 0, EF.fin 100, some "Reference value is zero or null", false⟩ := by
  simp [classifyRow, hx]

/-- Witness for the amended claim C1 at inventory 50, tolerance 5. -/
theorem classifyRow_ref_zero_witness :
    classifyRow 5 (EF.fin 50) (EF.fin 0) =
      ⟨EF.fin 50, EF.fin 0, EF.fin 100,
        some "Reference value is zero or null", false⟩ :=
  classifyRow_ref_zero 5 (EF.fin 50) (by decide)

/-- Claim C10: `validate_inventory` with a `group_by` mode other than
`flow`, `state`, `facility` or `subpart` never assigns the grouping-key
list and fails before producing any output row, whatever the inputs. -/
theorem validate_inventory_unknown_group_by (inv ref : List Record) (hc : Bool)
    (tol : ℚ) (gb : String)
    (h : gb ≠ "flow" ∧ gb ≠ "state" ∧ gb ≠ "facility" ∧ gb ≠ "subpart") :
    validate_inventory inv ref gb hc tol = none := by
  obtain ⟨h1, h2, h3, h4⟩ := h
  simp [validate_inventory, groupByCols, h1, h2, h3, h4]

/-- Witness for claim C10 at the unrecognized mode `"county"`. -/
theorem validate_inventory_unknown_group_by_witness :
    validate_inventory [] [] "county" false 5 = none :=
  validate_inventory_unknown_group_by [] [] false 5 "county" (by decide)

/-- Counterexample to claim C7: a call of `validate_inventory` on an
inventory containing a missing (`nan`) `FlowAmount` leaves the caller's
inventory changed — the function assigns the filled `FlowAmount` column
back into the input frame, so the input is mutated. -/
theorem validate_mutates_input_cex :
    ∃ out, validate_inventory [⟨"CO2", "air", "", "", "", EF.nan⟩] [] "flow" false 5 =
      some out ∧ out.mutatedInv ≠ [⟨"CO2", "air", "", "", "", EF.nan⟩] := by
  exact ⟨_, rfl, by decide⟩

/-- Claim C7 as amended: `validate_inventory` is deterministic (its result
is a function of its arguments), but it does mutate both inputs: after a
successful call each input equals its original rows with missing
`FlowAmount` values replaced by `0.0`; a record whose `FlowAmount` is not
missing is left unchanged. -/
theorem validate_inventory_mutation_spec (inv ref : List Record) (gb : String)
    (hc : Bool) (tol : ℚ) (out : VOut) (r : Record)
    (h : validate_inventory inv ref gb hc tol = some out)
    (hr : r.FlowAmount ≠ EF.nan) :
    out.mutatedInv = inv.map fillRecord ∧ out.mutatedRef = ref.map fillRecord ∧
    fillRecord r = r := by
  refine ⟨?_, ?_, ?_⟩
  · unfold validate_inventory at h
    cases hg : groupByCols gb hc <;> rw [hg] at h
    · exact absurd h (by simp)
    · simp only [Option.some.injEq] at h; rw [← h]
  · unfold validate_inventory at h
    cases hg : groupByCols gb hc <;> rw [hg] at h
    · exact absurd h (by simp)
    · simp only [Option.some.injEq] at h; rw [← h]
  · simp [fillRecord, fillNan, hr]

/-- Witness for the amended claim C7 on a one-record inventory. -/
theorem validate_inventory_mutation_spec_witness :
    ({ rows := [(["CO2"], ⟨EF.fin 95, EF.fin 0, EF.fin 100,
         some "Reference value is zero or null", false⟩)],
       mutatedInv := [⟨"CO2", "air", "", "", "", EF.fin 95⟩],
       mutatedRef := [] } : VOut).mutatedInv =
        [⟨"CO2", "air", "", "", "", EF.fin 95⟩].map fillRecord ∧
    ({ rows := [(["CO2"], ⟨EF.fin 95, EF.fin 0, EF.fin 100,
         some "Reference value is zero or null", false⟩)],
       mutatedInv := [⟨"CO2", "air", "", "", "", EF.fin 95⟩],
       mutatedRef := [] } : VOut).mutatedRef = ([] : List Record).map fillRecord ∧
    fillRecord ⟨"CO2", "air", "", "", "", EF.fin 95⟩ =
      ⟨"CO2", "air", "", "", "", EF.fin 95⟩ :=
  validate_inventory_mutation_spec [⟨"CO2", "air", "", "", "", EF.fin 95⟩] []
    "flow" false 5 _ ⟨"CO2", "air", "", "", "", EF.fin 95⟩ (by decide) (by decide)

/-! ### Sums of amounts and mass conservation of the aggregation -/

/-- Sum of a list of amounts (the value `groupby(...).sum()` totals). -/
def sumEF (l : List EF) : EF := l.foldr EF.add (EF.fin 0)

theorem EF.add_zero_right (a : EF) : EF.add a (EF.fin 0) = a := by
  cases a <;> simp [EF.add]

theorem EF.add_zero_left (a : EF) : EF.add (EF.fin 0) a = a := by
  cases a <;> simp [EF.add]

theorem EF.addComm (a b : EF) : EF.add a b = EF.add b a := by
  cases a <;> cases b <;> simp [EF.add, add_comm]

theorem EF.addAssoc (a b c : EF) : EF.add (EF.add a b) c = EF.add a (EF.add b c) := by
  cases a <;> cases b <;> cases c <;> simp [EF.add, add_assoc]

theorem sumEF_insertAmt (k : List String) (a : EF) (l : List (List String × EF)) :
    sumEF ((insertAmt k a l).map Prod.snd) = EF.add (sumEF (l.map Prod.snd)) a := by
  induction l with
  | nil => simp [insertAmt, sumEF, EF.add_zero_right, EF.add_zero_left]
  | cons p rest ih =>
      obtain ⟨k', a'⟩ := p
      by_cases h : k = k'
      · simp only [insertAmt, if_pos h, List.map_cons, sumEF, List.foldr_cons]
        rw [EF.addAssoc, EF.addComm a, ← EF.addAssoc]
      · simp only [insertAmt, if_neg h, List.map_cons, sumEF, List.foldr_cons] at ih ⊢
        rw [ih, EF.addAssoc]

theorem sumEF_groupSum_aux (cols : List Col) (rs : List Record) :
    ∀ acc : List (List String × EF),
      sumEF (((rs.foldl (fun acc r =>
          insertAmt (keyOf cols r) r.FlowAmount acc) acc)).map Prod.snd) =
        EF.add (sumEF (acc.map Prod.snd)) (sumEF (rs.map Record.FlowAmount)) := by
  induction rs with
  | nil => intro acc; simp [sumEF, EF.add_zero_right]
  | cons r rest ih =>
      intro acc
      rw [List.foldl_cons, ih]
      rw [sumEF_insertAmt]
      simp only [List.map_cons, sumEF, List.foldr_cons]
      rw [EF.addAssoc, EF.addComm r.FlowAmount]

/-- Claim C4: the aggregation (fill missing `FlowAmount` with `0.0`, group
by the key columns, sum) conserves total mass — the sum of the output
group amounts equals the sum of the filled input amounts — for the
inventory side and the reference side independently. -/
theorem aggregate_mass_conservation (cols : List Col)
    (inventory_df reference_df : List Record) :
    sumEF ((aggregate cols inventory_df).map Prod.snd) =
      sumEF ((inventory_df.map fillRecord).map Record.FlowAmount) ∧
    sumEF ((aggregate cols reference_df).map Prod.snd) =
      sumEF ((reference_df.map fillRecord).map Record.FlowAmount) := by
  constructor <;>
  · unfold aggregate groupSum
    rw [sumEF_groupSum_aux]
    simp [sumEF, EF.add_zero_left]

/-! ### Keys of the aggregation and the outer join -/

theorem findAmt_eq_none (k : List String) (l : List (List String × EF)) :
    findAmt k l = none ↔ k ∉ l.map Prod.fst := by
  induction l with
  | nil => simp [findAmt]
  | cons p rest ih =>
      obtain ⟨k', a⟩ := p
      by_cases h : k = k'
      · subst h
        simp only [findAmt, if_pos rfl, List.map_cons, List.mem_cons]
        simp
      · simp only [findAmt, if_neg h, List.map_cons, List.mem_cons]
        simp [h, ih]

theorem insertAmt_keys (k : List String) (a : EF) (l : List (List String × EF)) :
    (insertAmt k a l).map Prod.fst =
      if k ∈ l.map Prod.fst then l.map Prod.fst else l.map Prod.fst ++ [k] := by
  induction l with
  | nil => simp [insertAmt]
  | cons p rest ih =>
      obtain ⟨k', a'⟩ := p
      by_cases h : k = k'
      · subst h
        simp only [insertAmt, if_pos rfl, List.map_cons, List.mem_cons]
        simp
      · simp only [insertAmt, if_neg h, List.map_cons, ih]
        by_cases hm : k ∈ rest.map Prod.fst <;> simp [hm, h]

theorem insertAmt_keys_nodup (k : List String) (a : EF) (l : List (List String × EF))
    (h : (l.map Prod.fst).Nodup) : ((insertAmt k a l).map Prod.fst).Nodup := by
  rw [insertAmt_keys]
  by_cases hm : k ∈ l.map Prod.fst
  · simpa [hm] using h
  · simp [hm, List.nodup_append, h]

theorem groupSum_keys_nodup (cols : List Col) (rs : List Record) :
    ((groupSum cols rs).map Prod.fst).Nodup := by
  unfold groupSum
  suffices h : ∀ acc : List (List String × EF), (acc.map Prod.fst).Nodup →
      (((rs.foldl (fun acc r =>
        insertAmt (keyOf cols r) r.FlowAmount acc) acc)).map Prod.fst).Nodup by
    exact h [] (by simp)
  induction rs with
  | nil => intro acc hacc; simpa using hacc
  | cons r rest ih => intro acc hacc; exact ih _ (insertAmt_keys_nodup _ _ _ hacc)

theorem aggregate_keys_nodup (cols : List Col) (rs : List Record) :
    ((aggregate cols rs).map Prod.fst).Nodup :=
  groupSum_keys_nodup cols (rs.map fillRecord)

theorem mergedFilled_keys (a b : List (List String × EF)) :
    (mergedFilled a b).map Prod.fst =
      a.map Prod.fst ++ (b.filter (fun p => (findAmt p.1 a).isNone)).map Prod.fst := by
  unfold mergedFilled outerMerge
  rw [List.map_map, List.map_append, List.map_map, List.map_map]
  rfl

theorem mem_mergedFilled_keys (a b : List (List String × EF)) (k : List String) :
    k ∈ (mergedFilled a b).map Prod.fst ↔
      k ∈ a.map Prod.fst ∨ k ∈ b.map Prod.fst := by
  rw [mergedFilled_keys, List.mem_append]
  constructor
  · rintro (h | h)
    · exact Or.inl h
    · obtain ⟨p, hp, hpk⟩ := List.mem_map.mp h
      exact Or.inr (List.mem_map.mpr ⟨p, (List.mem_filter.mp hp).1, hpk⟩)
  · rintro (h | h)
    · exact Or.inl h
    · by_cases hka : k ∈ a.map Prod.fst
      · exact Or.inl hka
      · obtain ⟨p, hp, hpk⟩ := List.mem_map.mp h
        refine Or.inr (List.mem_map.mpr ⟨p, List.mem_filter.mpr ⟨hp, ?_⟩, hpk⟩)
        rw [Option.isNone_iff_eq_none, findAmt_eq_none, hpk]
        exact hka

/-- Claim C3: in `validate_inventory`'s outer join of the two aggregated
inputs, the joined output's key list has no duplicates and contains
exactly the keys present in either aggregation (so every such key appears
exactly once); the joined row count is at least the larger of the two
aggregations' distinct-key counts; and a key absent from one side
contributes `0.0` for that side's amount. -/
theorem mergedFilled_outer_join_spec (cols : List Col) (inv ref : List Record) :
    ((mergedFilled (aggregate cols inv) (aggregate cols ref)).map Prod.fst).Nodup ∧
    (∀ k : List String,
      k ∈ (mergedFilled (aggregate cols inv) (aggregate cols ref)).map Prod.fst ↔
        k ∈ (aggregate cols inv).map Prod.fst ∨
          k ∈ (aggregate cols ref).map Prod.fst) ∧
    (mergedFilled (aggregate cols inv) (aggregate cols ref)).length ≥
      max (aggregate cols inv).length (aggregate cols ref).length ∧
    (∀ k x y, (k, x, y) ∈ mergedFilled (aggregate cols inv) (aggregate cols ref) →
      (k ∉ (aggregate cols ref).map Prod.fst → y = EF.fin 0) ∧
      (k ∉ (aggregate cols inv).map Prod.fst → x = EF.fin 0)) := by
  have hna := aggregate_keys_nodup cols inv
  have hnb := aggregate_keys_nodup cols ref
  refine ⟨?_, mem_mergedFilled_keys _ _, ?_, ?_⟩
  · rw [mergedFilled_keys, List.nodup_append]
    refine ⟨hna, hnb.sublist ((List.filter_sublist _).map Prod.fst), ?_⟩
    intro k hk hk'
    obtain ⟨p, hp, hpk⟩ := List.mem_map.mp hk'
    obtain ⟨_, hpred⟩ := List.mem_filter.mp hp
    exact (findAmt_eq_none p.1 (aggregate cols inv)).mp
      (Option.isNone_iff_eq_none.mp hpred) (hpk ▸ hk)
  · have hlen : (mergedFilled (aggregate cols inv) (aggregate cols ref)).length =
        (aggregate cols inv).length + ((aggregate cols ref).filter
          (fun p => (findAmt p.1 (aggregate cols inv)).isNone)).length := by
      simp [mergedFilled, outerMerge]
    refine max_le ?_ ?_
    · rw [hlen]; exact Nat.le_add_right _ _
    · rw [hlen]
      have hsplit := List.length_eq_countP_add_countP
        (fun p : List String × EF => (findAmt p.1 (aggregate cols inv)).isNone)
        (aggregate cols ref)
      rw [List.countP_eq_length_filter, List.countP_eq_length_filter] at hsplit
      have hinA : (((aggregate cols ref).filter (fun p =>
          decide ¬((findAmt p.1 (aggregate cols inv)).isNone = true))).length) ≤
          (aggregate cols inv).length := by
        have hsub : (((aggregate cols ref).filter (fun p =>
            decide ¬((findAmt p.1 (aggregate cols inv)).isNone = true))).map Prod.fst) ⊆
            (aggregate cols inv).map Prod.fst := by
          intro x hx
          obtain ⟨p, hp, hpk⟩ := List.mem_map.mp hx
          obtain ⟨_, hpred⟩ := List.mem_filter.mp hp
          have hne : findAmt p.1 (aggregate cols inv) ≠ none := by
            intro hnone
            simp [hnone] at hpred
          rw [← hpk]
          by_contra hnot
          exact hne ((findAmt_eq_none _ _).mpr hnot)
        have hnd : (((aggregate cols ref).filter (fun p =>
            decide ¬((findAmt p.1 (aggregate cols inv)).isNone = true))).map
              Prod.fst).Nodup :=
          hnb.sublist ((List.filter_sublist _).map Prod.fst)
        have hle := (List.subperm_of_subset hnd hsub).length_le
        simpa using hle
      omega
  · intro k x y hmem
    simp only [mergedFilled, List.mem_map] at hmem
    obtain ⟨t, ht, heq⟩ := hmem
    simp only [outerMerge, List.mem_append, List.mem_map] at ht
    rcases ht with ⟨p, hp, rfl⟩ | ⟨p, hp, rfl⟩
    · simp only [Prod.mk.injEq] at heq
      obtain ⟨hk, hx, hy⟩ := heq
      constructor
      · intro hkb
        rw [← hy]
        have hnone : findAmt p.1 (aggregate cols ref) = none :=
          (findAmt_eq_none _ _).mpr (by rw [hk]; exact hkb)
        simp [hnone, fillNan]
      · intro hka
        exact absurd (List.mem_map.mpr ⟨p, hp, hk⟩) hka
    · simp only [Prod.mk.injEq] at heq
      obtain ⟨hk, hx, hy⟩ := heq
      constructor
      · intro hkb
        exact absurd (List.mem_map.mpr ⟨p, (List.mem_filter.mp hp).1, hk⟩) hkb
      · intro hka
        rw [← hx]
        simp [fillNan]

/-- Witness for claim C3 on scenario 5's inputs: the single inventory key
is a joined key, the row count bound holds, and the missing reference side
contributes `0.0`. -/
theorem mergedFilled_outer_join_spec_witness :
    (["SO2"] ∈ (mergedFilled
        (aggregate [Col.FlowName] [⟨"SO2", "air", "", "", "", EF.fin 50⟩])
        (aggregate [Col.FlowName] [])).map Prod.fst) ∧
    (mergedFilled (aggregate [Col.FlowName] [⟨"SO2", "air", "", "", "", EF.fin 50⟩])
        (aggregate [Col.FlowName] [])).length ≥ 1 ∧
    EF.fin 0 = EF.fin 0 := by
  obtain ⟨h0, h1, h2, h3⟩ := mergedFilled_outer_join_spec [Col.FlowName]
    [⟨"SO2", "air", "", "", "", EF.fin 50⟩] []
  refine ⟨?_, ?_, ?_⟩
  · exact (h1 ["SO2"]).mpr (Or.inl (by decide))
  · exact le_trans (by decide) h2
  · exact (h3 ["SO2"] (EF.fin 50) (EF.fin 0) (by decide)).1 (by decide)

/-! ### Provenance ledger records and validation-result writing -/

/-- One row of `ValidationSets_Sources.csv` (all columns read as strings). -/
structure VRec where
  Inventory : String
  Version : String
  Year : String
  Name : String
  URL : String
  Criteria : String
  DateAcquired : String
deriving DecidableEq

/-- The validation-set metadata assembled by `write_validation_result`
(lines 149-154 of the source). -/
structure ValidationMetadata where
  SourceFileName : String
  SourceVersion : String
  SourceURL : String
  SourceAcquisitionTime : String
  Criteria : String
deriving DecidableEq

/-- Observable effects of `write_validation_result`: the numeric result
file write (unconditional, line 135), the `no validation metadata found`
error log, and the metadata written by `write_metadata` (skipped by the
early `return` when the provenance lookup does not yield one record). -/
structure WriteOutcome where
  resultFileWritten : Bool
  errorLogged : Bool
  metadataWritten : Option ValidationMetadata
deriving DecidableEq

/-- `write_validation_result(inventory_acronym, year, validation_df)`
(lines 125-157), as a function of the provenance table read from
`ValidationSets_Sources.csv`.  The result CSV is written before the
lookup; when the filtered table has any length other than one, an error
is logged and the function returns without writing metadata. -/
def write_validation_result (inventory_acronym year : String)
    (table : List VRec) : WriteOutcome :=
  match table.filter (fun r => r.Inventory = inventory_acronym && r.Year = year) with
  | [info] =>
      { resultFileWritten := true, errorLogged := false,
        metadataWritten := some
          ⟨info.Name, info.Version, info.URL, info.DateAcquired, info.Criteria⟩ }
  | _ => { resultFileWritten := true, errorLogged := true, metadataWritten := none }

/-- Claim C8: when no provenance record matches the `(Inventory, Year)`
key, the numeric validation result file is still written, an error is
logged, and the metadata write is skipped. -/
theorem write_validation_result_no_match (inventory_acronym year : String)
    (table : List VRec)
    (h : ∀ r ∈ table, ¬(r.Inventory = inventory_acronym ∧ r.Year = year)) :
    write_validation_result inventory_acronym year table =
      { resultFileWritten := true, errorLogged := true, metadataWritten := none } := by
  have hfil : table.filter
      (fun r => r.Inventory = inventory_acronym && r.Year = year) = [] :=
    List.filter_eq_nil_iff.mpr (by intro a ha; simpa using h a ha)
  unfold write_validation_result
  rw [hfil]

/-- Witness for claim C8: an unrelated provenance row does not match
`(NEI, 2017)`, so only the numeric file is written. -/
theorem write_validation_result_no_match_witness :
    write_validation_result "NEI" "2017"
      [⟨"TRI", "v1", "2016", "TRI totals", "http://x", "crit", "01-Jan-2020"⟩] =
      { resultFileWritten := true, errorLogged := true, metadataWritten := none } :=
  write_validation_result_no_match "NEI" "2017" _ (by decide)

/-! ### Scale homogeneity of the validation -/

/-- Multiply an amount by the constant `k` (the property-side operation of
scaling every `FlowAmount`). -/
def scaleEF (k : ℚ) (a : EF) : EF := EF.mul (EF.fin k) a

/-- Scale one record's `FlowAmount` by `k`. -/
def scaleRecord (k : ℚ) (r : Record) : Record :=
  { r with FlowAmount := scaleEF k r.FlowAmount }

/-- Scale the amount of one keyed row by `k`. -/
def scalePair (k : ℚ) (p : List String × EF) : List String × EF :=
  (p.1, scaleEF k p.2)

theorem scaleEF_fin (k q : ℚ) : scaleEF k (EF.fin q) = EF.fin (k * q) := rfl

theorem scaleEF_pinf (k : ℚ) (hk : 0 < k) : scaleEF k EF.pinf = EF.pinf := by
  simp [scaleEF, EF.mul, hk]

theorem scaleEF_ninf (k : ℚ) (hk : 0 < k) : scaleEF k EF.ninf = EF.ninf := by
  simp [scaleEF, EF.mul, hk]

theorem scaleEF_nan (k : ℚ) : scaleEF k EF.nan = EF.nan := rfl

theorem fillNan_scaleEF (k : ℚ) (hk : 0 < k) (a : EF) :
    fillNan (scaleEF k a) = scaleEF k (fillNan a) := by
  cases a <;> simp [fillNan, scaleEF, EF.mul, hk]

theorem scaleEF_add (k : ℚ) (hk : 0 < k) (a b : EF) :
    scaleEF k (EF.add a b) = EF.add (scaleEF k a) (scaleEF k b) := by
  cases a <;> cases b <;> simp [scaleEF, EF.mul, EF.add, hk, mul_add]

theorem insertAmt_scale (k : ℚ) (hk : 0 < k) (kk : List String) (a : EF)
    (l : List (List String × EF)) :
    insertAmt kk (scaleEF k a) (l.map (scalePair k)) =
      (insertAmt kk a l).map (scalePair k) := by
  induction l with
  | nil => rfl
  | cons p rest ih =>
      obtain ⟨k', a'⟩ := p
      by_cases h : kk = k'
      · subst h; simp [insertAmt, scalePair, scaleEF_add k hk]
      · simp [insertAmt, scalePair, h, ih]

theorem keyOf_scaleRecord (k : ℚ) (cols : List Col) (r : Record) :
    keyOf cols (scaleRecord k r) = keyOf cols r := by
  induction cols with
  | nil => rfl
  | cons c cs ih =>
      simp only [keyOf, List.map_cons] at ih ⊢
      rw [ih]
      congr 1

theorem fillRecord_scaleRecord (k : ℚ) (hk : 0 < k) (r : Record) :
    fillRecord (scaleRecord k r) = scaleRecord k (fillRecord r) := by
  cases r
  simp [fillRecord, scaleRecord, fillNan_scaleEF k hk]

theorem groupSum_scale (k : ℚ) (hk : 0 < k) (cols : List Col) (rs : List Record) :
    groupSum cols (rs.map (scaleRecord k)) = (groupSum cols rs).map (scalePair k) := by
  unfold groupSum
  suffices h : ∀ acc, (rs.map (scaleRecord k)).foldl
      (fun acc r => insertAmt (keyOf cols r) r.FlowAmount acc) (acc.map (scalePair k)) =
      (rs.foldl (fun acc r =>
        insertAmt (keyOf cols r) r.FlowAmount acc) acc).map (scalePair k) by
    simpa using h []
  induction rs with
  | nil => intro acc; simp
  | cons r rest ih =>
      intro acc
      simp only [List.map_cons, List.foldl_cons]
      rw [keyOf_scaleRecord]
      have hamt : (scaleRecord k r).FlowAmount = scaleEF k r.FlowAmount := rfl
      rw [hamt, insertAmt_scale k hk]
      exact ih _

theorem aggregate_scale (k : ℚ) (hk : 0 < k) (cols : List Col) (rs : List Record) :
    aggregate cols (rs.map (scaleRecord k)) = (aggregate cols rs).map (scalePair k) := by
  unfold aggregate
  rw [← groupSum_scale k hk]
  congr 1
  rw [List.map_map, List.map_map]
  exact List.map_congr_left (fun r _ => fillRecord_scaleRecord k hk r)

theorem findAmt_scale (k : ℚ) (kk : List String) (l : List (List String × EF)) :
    findAmt kk (l.map (scalePair k)) = (findAmt kk l).map (scaleEF k) := by
  induction l with
  | nil => rfl
  | cons p rest ih =>
      obtain ⟨k', a⟩ := p
      by_cases h : kk = k' <;> simp [findAmt, scalePair, h, ih]

theorem getD_scale (k : ℚ) (o : Option EF) :
    (o.map (scaleEF k)).getD EF.nan = scaleEF k (o.getD EF.nan) := by
  cases o <;> simp [scaleEF, EF.mul]

theorem classifyRow_scale (k tol : ℚ) (hk : 0 < k) (x y : EF) :
    ((classifyRow tol (scaleEF k x) (scaleEF k y)).pct,
      (classifyRow tol (scaleEF k x) (scaleEF k y)).concl) =
      ((classifyRow tol x y).pct, (classifyRow tol x y).concl) := by
  have hkne : k ≠ 0 := hk.ne'
  have h100 : (0 : ℚ) < 100 := by norm_num
  cases x with
  | fin xq =>
      cases y with
      | fin yq =>
          rw [scaleEF_fin, scaleEF_fin]
          by_cases hx0 : xq = 0
          · subst hx0
            rw [mul_zero]
            by_cases hy0 : yq = 0
            · subst hy0; rw [mul_zero]
            · have hky : k * yq ≠ 0 := mul_ne_zero hkne hy0
              simp [classifyRow, hy0, hky]
          · have hkx : k * xq ≠ 0 := mul_ne_zero hkne hx0
            by_cases hy0 : yq = 0
            · subst hy0
              rw [mul_zero]
              rw [classifyRow_ref_zero tol _ (by simp [hkx]),
                classifyRow_ref_zero tol _ (by simp [hx0])]
            · have hky : k * yq ≠ 0 := mul_ne_zero hkne hy0
              rw [classifyRow_fin_fin tol _ _ hkx hky,
                classifyRow_fin_fin tol _ _ hx0 hy0]
              have harith : (100 : ℚ) * |k * yq - k * xq| / (k * yq) =
                  100 * |yq - xq| / yq := by
                rw [← mul_sub, abs_mul, abs_of_pos hk]
                field_simp
                ring
              rw [harith]
              split_ifs <;> rfl
      | pinf =>
          rw [scaleEF_fin, scaleEF_pinf k hk,
            classifyRow_ref_infinity, classifyRow_ref_infinity]
      | ninf =>
          rw [scaleEF_fin, scaleEF_ninf k hk]
          by_cases hx0 : xq = 0
          · subst hx0; rw [mul_zero]
          · have hkx : k * xq ≠ 0 := mul_ne_zero hkne hx0
            simp [classifyRow, hkx, hx0, EF.sub, EF.abs, EF.mul, EF.div,
              EF.leQ, EF.gtQ, h100]
      | nan =>
          rw [scaleEF_fin, scaleEF_nan]
          by_cases hx0 : xq = 0
          · subst hx0; rw [mul_zero]
          · have hkx : k * xq ≠ 0 := mul_ne_zero hkne hx0
            simp [classifyRow, hkx, hx0, EF.sub, EF.abs, EF.mul, EF.div,
              EF.leQ, EF.gtQ]
  | pinf =>
      cases y with
      | fin yq =>
          rw [scaleEF_pinf k hk, scaleEF_fin]
          by_cases hy0 : yq = 0
          · subst hy0
            rw [mul_zero]
          · have hky : k * yq ≠ 0 := mul_ne_zero hkne hy0
            have hsign : (0 ≤ k * yq) ↔ (0 ≤ yq) := mul_nonneg_iff_of_pos_left hk
            by_cases hy : (0 : ℚ) ≤ yq
            · simp [classifyRow, hky, hy0, EF.sub, EF.abs, EF.mul, EF.div,
                EF.leQ, EF.gtQ, h100, hy, hsign.mpr hy]
            · simp [classifyRow, hky, hy0, EF.sub, EF.abs, EF.mul, EF.div,
                EF.leQ, EF.gtQ, h100, hy, (not_iff_not.mpr hsign).mpr hy]
      | pinf =>
          rw [scaleEF_pinf k hk]
      | ninf =>
          rw [scaleEF_pinf k hk, scaleEF_ninf k hk]
      | nan =>
          rw [scaleEF_pinf k hk, scaleEF_nan]
  | ninf =>
      cases y with
      | fin yq =>
          rw [scaleEF_ninf k hk, scaleEF_fin]
          by_cases hy0 : yq = 0
          · subst hy0
            rw [mul_zero]
          · have hky : k * yq ≠ 0 := mul_ne_zero hkne hy0
            have hsign : (0 ≤ k * yq) ↔ (0 ≤ yq) := mul_nonneg_iff_of_pos_left hk
            by_cases hy : (0 : ℚ) ≤ yq
            · simp [classifyRow, hky, hy0, EF.sub, EF.abs, EF.mul, EF.div,
                EF.leQ, EF.gtQ, h100, hy, hsign.mpr hy]
            · simp [classifyRow, hky, hy0, EF.sub, EF.abs, EF.mul, EF.div,
                EF.leQ, EF.gtQ, h100, hy, (not_iff_not.mpr hsign).mpr hy]
      | pinf =>
          rw [scaleEF_ninf k hk, scaleEF_pinf k hk]
      | ninf =>
          rw [scaleEF_ninf k hk]
      | nan =>
          rw [scaleEF_ninf k hk, scaleEF_nan]
  | nan =>
      cases y with
      | fin yq =>
          rw [scaleEF_nan, scaleEF_fin]
          by_cases hy0 : yq = 0
          · subst hy0; rw [mul_zero]
          · have hky : k * yq ≠ 0 := mul_ne_zero hkne hy0
            simp [classifyRow, hky, hy0, EF.sub, EF.abs, EF.mul, EF.div,
              EF.leQ, EF.gtQ]
      | pinf =>
          rw [scaleEF_nan, scaleEF_pinf k hk]
      | ninf =>
          rw [scaleEF_nan, scaleEF_ninf k hk]
      | nan =>
          rw [scaleEF_nan]

theorem mergedFilled_scale (k : ℚ) (hk : 0 < k) (a b : List (List String × EF)) :
    mergedFilled (a.map (scalePair k)) (b.map (scalePair k)) =
      (mergedFilled a b).map (fun t => (t.1, scaleEF k t.2.1, scaleEF k t.2.2)) := by
  unfold mergedFilled outerMerge
  rw [List.filter_map]
  have hpred : ((fun p : List String × EF =>
      (findAmt p.1 (a.map (scalePair k))).isNone) ∘ scalePair k) =
      (fun p : List String × EF => (findAmt p.1 a).isNone) := by
    funext p
    simp [scalePair, findAmt_scale]
  rw [hpred]
  simp only [List.map_append, List.map_map]
  congr 1
  · apply List.map_congr_left
    intro p _
    simp only [Function.comp, scalePair]
    rw [findAmt_scale, getD_scale, fillNan_scaleEF k hk, fillNan_scaleEF k hk]
  · apply List.map_congr_left
    intro p _
    simp only [Function.comp, scalePair]
    rw [fillNan_scaleEF k hk]
    simp [fillNan, scaleEF, EF.mul]

/-- Claim C5: for inventories and references of positive finite amounts
and any `k > 0`, running `validate_inventory` on the inputs with every
`FlowAmount` multiplied by `k` yields the same `Percent_Difference` and
the same `Conclusion` for every group as the unscaled run. -/
theorem validate_inventory_scale_invariant (k tol : ℚ) (gb : String) (hc : Bool)
    (inv ref : List Record) (hk : 0 < k)
    (hinv : ∀ r ∈ inv, ∃ q : ℚ, 0 < q ∧ r.FlowAmount = EF.fin q)
    (href : ∀ r ∈ ref, ∃ q : ℚ, 0 < q ∧ r.FlowAmount = EF.fin q) :
    Option.map (fun o : VOut => o.rows.map (fun p => (p.1, p.2.pct, p.2.concl)))
      (validate_inventory (inv.map (scaleRecord k)) (ref.map (scaleRecord k))
        gb hc tol) =
    Option.map (fun o : VOut => o.rows.map (fun p => (p.1, p.2.pct, p.2.concl)))
      (validate_inventory inv ref gb hc tol) := by
  unfold validate_inventory
  cases hg : groupByCols gb hc with
  | none => simp
  | some cols =>
      simp only [Option.map_some']
      rw [aggregate_scale k hk, aggregate_scale k hk, mergedFilled_scale k hk]
      simp only [Option.some.injEq, List.map_map]
      apply List.map_congr_left
      intro t _
      have h := classifyRow_scale k tol hk t.2.1 t.2.2
      have h1 := congrArg Prod.fst h
      have h2 := congrArg Prod.snd h
      simp only at h1 h2
      simp [Function.comp, h1, h2]

/-- Witness for claim C5: scaling the scenario-2 inputs by `k = 2` leaves
every group's percent difference and conclusion unchanged. -/
theorem validate_inventory_scale_invariant_witness :
    Option.map (fun o : VOut => o.rows.map (fun p => (p.1, p.2.pct, p.2.concl)))
      (validate_inventory ([⟨"CO2", "air", "", "", "", EF.fin 95⟩].map (scaleRecord 2))
        ([⟨"CO2", "air", "", "", "", EF.fin 100⟩].map (scaleRecord 2)) "flow" false 5) =
    Option.map (fun o : VOut => o.rows.map (fun p => (p.1, p.2.pct, p.2.concl)))
      (validate_inventory [⟨"CO2", "air", "", "", "", EF.fin 95⟩]
        [⟨"CO2", "air", "", "", "", EF.fin 100⟩] "flow" false 5) :=
  validate_inventory_scale_invariant 2 5 "flow" false _ _ (by norm_num)
    (by
      intro r hr
      rw [List.mem_singleton] at hr
      subst hr
      exact ⟨95, by norm_num, rfl⟩)
    (by
      intro r hr
      rw [List.mem_singleton] at hr
      subst hr
      exact ⟨100, by norm_num, rfl⟩)

/-! ### The provenance-ledger upsert -/

/-- Lines 167-169: unless the caller supplied a date, today's date is
written into the record's `Date Acquired` field. -/
def stampDate (validation_dict : VRec) (date_acquired : Bool) (today : String) : VRec :=
  if date_acquired then validation_dict
  else { validation_dict with DateAcquired := today }

/-- The pandas `RangeIndex` of a freshly read table: rows paired with
indices `i, i + 1, ...` (kept in `ℚ` because the insert branch uses the
fractional index `i + 0.5`). -/
def idxFrom (i : ℚ) : List VRec → List (ℚ × VRec)
  | [] => []
  | r :: rest => (i, r) :: idxFrom (i + 1) rest

/-- `v_table.sort_index()`: sort the indexed rows by index.  All reachable
states have pairwise-distinct indices, so any comparison sort computes the
same list. -/
def sortByIdx (l : List (ℚ × VRec)) : List (ℚ × VRec) :=
  List.insertionSort (fun p q => p.1 ≤ q.1) l

/-- Lines 170-183 of the source for an already-stamped record `d`: if any
row matches on `(Inventory, Year)`, drop all matching rows and append the
new record at the first match's index; otherwise append it at
`i + 0.5` where `i` is the greatest position whose `Inventory` matches
(`max()` of an empty generator raises, modelled as `none`); finally
re-sort by index. -/
def upsertRecord (d : VRec) (v_table : List VRec) : Option (List VRec) :=
  match (idxFrom 0 v_table).filter (fun p =>
      p.2.Inventory = d.Inventory && p.2.Year = d.Year) with
  | e :: _ =>
      some ((sortByIdx
        (((idxFrom 0 v_table).filter (fun p =>
          !(p.2.Inventory = d.Inventory && p.2.Year = d.Year))) ++ [(e.1, d)])).map
        Prod.snd)
  | [] =>
      match (((idxFrom 0 v_table).filter
          (fun p => p.2.Inventory = d.Inventory)).map Prod.fst).max? with
      | none => none
      | some i =>
          some ((sortByIdx ((idxFrom 0 v_table) ++ [(i + 1/2, d)])).map Prod.snd)

/-- `update_validationsets_sources(validation_dict, date_acquired)`
(lines 160-186), as a function of the table read from
`ValidationSets_Sources.csv`; the returned table is the one persisted. -/
def update_validationsets_sources (validation_dict : VRec) (date_acquired : Bool)
    (today : String) (v_table : List VRec) : Option (List VRec) :=
  upsertRecord (stampDate validation_dict date_acquired today) v_table

theorem idxFrom_map_snd (i : ℚ) (l : List VRec) : (idxFrom i l).map Prod.snd = l := by
  induction l generalizing i with
  | nil => rfl
  | cons r rest ih => simp [idxFrom, ih]

theorem idxFrom_append (i : ℚ) (l₁ l₂ : List VRec) :
    idxFrom i (l₁ ++ l₂) = idxFrom i l₁ ++ idxFrom (i + l₁.length) l₂ := by
  induction l₁ generalizing i with
  | nil => simp [idxFrom]
  | cons r rest ih =>
      simp only [List.cons_append, idxFrom, List.length_cons, List.append_eq]
      rw [ih]
      congr 2
      push_cast
      ring_nf

theorem idxFrom_bounds (i : ℚ) (l : List VRec) :
    ∀ p ∈ idxFrom i l, i ≤ p.1 ∧ p.1 < i + l.length := by
  induction l generalizing i with
  | nil => simp [idxFrom]
  | cons r rest ih =>
      intro p hp
      simp only [idxFrom, List.mem_cons] at hp
      rcases hp with rfl | hp
      · refine ⟨le_refl _, ?_⟩
        have : (0 : ℚ) ≤ rest.length := by positivity
        simp only [List.length_cons]
        push_cast
        linarith
      · have h := ih (i + 1) p hp
        refine ⟨by linarith [h.1], ?_⟩
        have h2 := h.2
        simp only [List.length_cons]
        push_cast at h2 ⊢
        linarith

theorem idxFrom_sorted (i : ℚ) (l : List VRec) :
    (idxFrom i l).Pairwise (fun p q => p.1 < q.1) := by
  induction l generalizing i with
  | nil => exact List.Pairwise.nil
  | cons r rest ih =>
      refine List.Pairwise.cons ?_ (ih (i + 1))
      intro p hp
      have h := (idxFrom_bounds (i + 1) rest p hp).1
      simp only []
      linarith

theorem mem_idxFrom_snd {i : ℚ} {l : List VRec} {p : ℚ × VRec}
    (hp : p ∈ idxFrom i l) : p.2 ∈ l := by
  have h := List.mem_map_of_mem Prod.snd hp
  rwa [idxFrom_map_snd] at h

instance : IsTotal (ℚ × VRec) (fun p q => p.1 ≤ q.1) := ⟨fun a b => le_total a.1 b.1⟩

instance : IsTrans (ℚ × VRec) (fun p q => p.1 ≤ q.1) :=
  ⟨fun _ _ _ h1 h2 => le_trans h1 h2⟩

instance : IsAntisymm (ℚ × VRec) (fun p q => p.1 < q.1) :=
  ⟨fun _ _ h1 h2 => (lt_asymm h1 h2).elim⟩

theorem sortByIdx_perm (l : List (ℚ × VRec)) : List.Perm (sortByIdx l) l :=
  List.perm_insertionSort _ l

theorem sortByIdx_le_sorted (l : List (ℚ × VRec)) :
    (sortByIdx l).Pairwise (fun p q => p.1 ≤ q.1) :=
  List.sorted_insertionSort _ l

theorem pairwise_le_lt {l : List (ℚ × VRec)}
    (hle : l.Pairwise (fun p q => p.1 ≤ q.1)) (hnd : (l.map Prod.fst).Nodup) :
    l.Pairwise (fun p q => p.1 < q.1) := by
  induction l with
  | nil => exact List.Pairwise.nil
  | cons p rest ih =>
      obtain ⟨hhead, htail⟩ := List.pairwise_cons.mp hle
      rw [List.map_cons, List.nodup_cons] at hnd
      obtain ⟨hmem, hnd'⟩ := hnd
      refine List.Pairwise.cons ?_ (ih htail hnd')
      intro q hq
      refine lt_of_le_of_ne (hhead q hq) ?_
      intro heq
      exact hmem (heq ▸ List.mem_map_of_mem Prod.fst hq)

theorem pairwise_lt_nodup {l : List (ℚ × VRec)}
    (h : l.Pairwise (fun p q => p.1 < q.1)) : (l.map Prod.fst).Nodup := by
  have hp : l.Pairwise (fun p q => p.1 ≠ q.1) := h.imp (fun hlt => ne_of_lt hlt)
  exact (List.pairwise_map).mpr hp

theorem sortByIdx_eq_of_target {m t : List (ℚ × VRec)} (hperm : List.Perm m t)
    (ht : t.Pairwise (fun p q => p.1 < q.1)) : sortByIdx m = t := by
  have hperm2 : List.Perm (sortByIdx m) t := (sortByIdx_perm m).trans hperm
  have hnd_t : (t.map Prod.fst).Nodup := pairwise_lt_nodup ht
  have hnd_s : ((sortByIdx m).map Prod.fst).Nodup :=
    (List.Perm.nodup_iff (hperm2.map Prod.fst)).mpr hnd_t
  have hlt : (sortByIdx m).Pairwise (fun p q => p.1 < q.1) :=
    pairwise_le_lt (sortByIdx_le_sorted m) hnd_s
  exact List.eq_of_perm_of_sorted hperm2 hlt ht

theorem foldl_max_le (as : List ℚ) (a j : ℚ) (ha : a ≤ j) (h : ∀ m ∈ as, m ≤ j) :
    as.foldl max a ≤ j := by
  induction as generalizing a with
  | nil => exact ha
  | cons b bs ih =>
      refine ih (max a b) (max_le ha (h b (by simp))) ?_
      intro m hm
      exact h m (by simp [hm])

theorem max?_append_singleton (l : List ℚ) (j : ℚ) (h : ∀ m ∈ l, m ≤ j) :
    (l ++ [j]).max? = some j := by
  cases l with
  | nil => rfl
  | cons a as =>
      have hcons : ((a :: as) ++ [j]).max? = some ((as ++ [j]).foldl max a) := rfl
      rw [hcons, List.foldl_append]
      have hle : as.foldl max a ≤ j :=
        foldl_max_le as a j (h a (by simp)) (fun m hm => h m (by simp [hm]))
      simp [max_eq_right hle]

theorem upsertRecord_replace (d r : VRec) (l₁ l₂ : List VRec)
    (hmatch : r.Inventory = d.Inventory ∧ r.Year = d.Year)
    (hothers : ∀ x, x ∈ l₁ ∨ x ∈ l₂ →
      ¬(x.Inventory = d.Inventory ∧ x.Year = d.Year)) :
    upsertRecord d (l₁ ++ r :: l₂) = some (l₁ ++ d :: l₂) := by
  have hit : idxFrom 0 (l₁ ++ r :: l₂) =
      idxFrom 0 l₁ ++ ((l₁.length : ℚ), r) :: idxFrom ((l₁.length : ℚ) + 1) l₂ := by
    rw [idxFrom_append]
    simp [idxFrom]
  have hpredA : ∀ p ∈ idxFrom 0 l₁,
      ¬((p.2.Inventory = d.Inventory && p.2.Year = d.Year) = true) := by
    intro p hp
    have hm := mem_idxFrom_snd hp
    simp only [Bool.and_eq_true, decide_eq_true_eq]
    rintro ⟨h1, h2⟩
    exact hothers p.2 (Or.inl hm) ⟨h1, h2⟩
  have hpredB : ∀ p ∈ idxFrom ((l₁.length : ℚ) + 1) l₂,
      ¬((p.2.Inventory = d.Inventory && p.2.Year = d.Year) = true) := by
    intro p hp
    have hm := mem_idxFrom_snd hp
    simp only [Bool.and_eq_true, decide_eq_true_eq]
    rintro ⟨h1, h2⟩
    exact hothers p.2 (Or.inr hm) ⟨h1, h2⟩
  have hpredr : (r.Inventory = d.Inventory && r.Year = d.Year) = true := by
    simp [hmatch.1, hmatch.2]
  have hfilA : (idxFrom 0 l₁).filter
      (fun p => p.2.Inventory = d.Inventory && p.2.Year = d.Year) = [] :=
    List.filter_eq_nil_iff.mpr hpredA
  have hfilB : (idxFrom ((l₁.length : ℚ) + 1) l₂).filter
      (fun p => p.2.Inventory = d.Inventory && p.2.Year = d.Year) = [] :=
    List.filter_eq_nil_iff.mpr hpredB
  have hfil : (idxFrom 0 (l₁ ++ r :: l₂)).filter
      (fun p => p.2.Inventory = d.Inventory && p.2.Year = d.Year) =
      [((l₁.length : ℚ), r)] := by
    rw [hit, List.filter_append, hfilA, List.filter_cons, if_pos hpredr, hfilB]
    rfl
  have hkeptA : (idxFrom 0 l₁).filter
      (fun p => !(p.2.Inventory = d.Inventory && p.2.Year = d.Year)) =
      idxFrom 0 l₁ := by
    apply List.filter_eq_self.mpr
    intro p hp
    have h := hpredA p hp
    simp only [Bool.and_eq_true, decide_eq_true_eq, not_and] at h
    simpa [imp_iff_not_or] using h
  have hkeptB : (idxFrom ((l₁.length : ℚ) + 1) l₂).filter
      (fun p => !(p.2.Inventory = d.Inventory && p.2.Year = d.Year)) =
      idxFrom ((l₁.length : ℚ) + 1) l₂ := by
    apply List.filter_eq_self.mpr
    intro p hp
    have h := hpredB p hp
    simp only [Bool.and_eq_true, decide_eq_true_eq, not_and] at h
    simpa [imp_iff_not_or] using h
  have hkept : (idxFrom 0 (l₁ ++ r :: l₂)).filter
      (fun p => !(p.2.Inventory = d.Inventory && p.2.Year = d.Year)) =
      idxFrom 0 l₁ ++ idxFrom ((l₁.length : ℚ) + 1) l₂ := by
    rw [hit, List.filter_append, hkeptA, List.filter_cons,
      if_neg (by simp [hpredr]), hkeptB]
  have hsorted_t : (idxFrom 0 l₁ ++ ((l₁.length : ℚ), d) ::
      idxFrom ((l₁.length : ℚ) + 1) l₂).Pairwise (fun p q => p.1 < q.1) := by
    rw [List.pairwise_append]
    refine ⟨idxFrom_sorted 0 l₁, ?_, ?_⟩
    · refine List.Pairwise.cons ?_ (idxFrom_sorted _ l₂)
      intro q hq
      have hb := (idxFrom_bounds _ l₂ q hq).1
      linarith
    · intro p hp q hq
      have hpb := (idxFrom_bounds 0 l₁ p hp).2
      rw [zero_add] at hpb
      rcases List.mem_cons.mp hq with rfl | hq2
      · simpa using hpb
      · have hqb := (idxFrom_bounds _ l₂ q hq2).1
        linarith
  have hperm : List.Perm
      ((idxFrom 0 l₁ ++ idxFrom ((l₁.length : ℚ) + 1) l₂) ++ [((l₁.length : ℚ), d)])
      (idxFrom 0 l₁ ++ ((l₁.length : ℚ), d) :: idxFrom ((l₁.length : ℚ) + 1) l₂) := by
    rw [List.append_assoc]
    exact List.Perm.append_left _ (List.perm_append_singleton _ _)
  have hsort := sortByIdx_eq_of_target hperm hsorted_t
  unfold upsertRecord
  rw [hfil]
  simp only [hkept]
  rw [hsort]
  rw [List.map_append, idxFrom_map_snd, List.map_cons, idxFrom_map_snd]

theorem upsertRecord_insert (d r : VRec) (l₁ l₂ : List VRec)
    (hrInv : r.Inventory = d.Inventory)
    (hl₂ : ∀ x ∈ l₂, x.Inventory ≠ d.Inventory)
    (hnone : ∀ x, x ∈ l₁ ∨ x = r ∨ x ∈ l₂ →
      ¬(x.Inventory = d.Inventory ∧ x.Year = d.Year)) :
    upsertRecord d (l₁ ++ r :: l₂) = some (l₁ ++ r :: d :: l₂) := by
  have hit : idxFrom 0 (l₁ ++ r :: l₂) =
      idxFrom 0 l₁ ++ ((l₁.length : ℚ), r) :: idxFrom ((l₁.length : ℚ) + 1) l₂ := by
    rw [idxFrom_append]
    simp [idxFrom]
  have hfil : (idxFrom 0 (l₁ ++ r :: l₂)).filter
      (fun p => p.2.Inventory = d.Inventory && p.2.Year = d.Year) = [] := by
    apply List.filter_eq_nil_iff.mpr
    intro p hp
    have hm := mem_idxFrom_snd hp
    rw [List.mem_append, List.mem_cons] at hm
    simp only [Bool.and_eq_true, decide_eq_true_eq]
    rintro ⟨h1, h2⟩
    refine hnone p.2 ?_ ⟨h1, h2⟩
    tauto
  have hlocB : (idxFrom ((l₁.length : ℚ) + 1) l₂).filter
      (fun p => p.2.Inventory = d.Inventory) = [] := by
    apply List.filter_eq_nil_iff.mpr
    intro p hp
    have hm := mem_idxFrom_snd hp
    simp only [decide_eq_true_eq]
    exact hl₂ p.2 hm
  have hloc : (idxFrom 0 (l₁ ++ r :: l₂)).filter
      (fun p => p.2.Inventory = d.Inventory) =
      ((idxFrom 0 l₁).filter (fun p => p.2.Inventory = d.Inventory)) ++
        [((l₁.length : ℚ), r)] := by
    rw [hit, List.filter_append, List.filter_cons,
      if_pos (by simpa using hrInv), hlocB]
  have hmax : ((((idxFrom 0 (l₁ ++ r :: l₂)).filter
        (fun p => p.2.Inventory = d.Inventory)).map Prod.fst).max?) =
      some ((l₁.length : ℚ)) := by
    rw [hloc, List.map_append]
    apply max?_append_singleton
    intro m hm
    obtain ⟨p, hp, hpm⟩ := List.mem_map.mp hm
    have hpA : p ∈ idxFrom 0 l₁ := List.mem_of_mem_filter hp
    have hb := (idxFrom_bounds 0 l₁ p hpA).2
    rw [zero_add] at hb
    rw [← hpm]
    exact le_of_lt hb
  have hsorted_t : (idxFrom 0 l₁ ++ ((l₁.length : ℚ), r) ::
      ((l₁.length : ℚ) + 1 / 2, d) ::
      idxFrom ((l₁.length : ℚ) + 1) l₂).Pairwise (fun p q => p.1 < q.1) := by
    rw [List.pairwise_append]
    refine ⟨idxFrom_sorted 0 l₁, ?_, ?_⟩
    · refine List.Pairwise.cons ?_ (List.Pairwise.cons ?_ (idxFrom_sorted _ l₂))
      · intro q hq
        rcases List.mem_cons.mp hq with rfl | hq2
        · norm_num
        · have hb := (idxFrom_bounds _ l₂ q hq2).1
          linarith
      · intro q hq
        have hb := (idxFrom_bounds _ l₂ q hq).1
        linarith
    · intro p hp q hq
      have hpb := (idxFrom_bounds 0 l₁ p hp).2
      rw [zero_add] at hpb
      rcases List.mem_cons.mp hq with rfl | hq2
      · simpa using hpb
      · rcases List.mem_cons.mp hq2 with rfl | hq3
        · simp only []
          linarith
        · have hqb := (idxFrom_bounds _ l₂ q hq3).1
          linarith
  have hperm : List.Perm
      ((idxFrom 0 (l₁ ++ r :: l₂)) ++ [((l₁.length : ℚ) + 1 / 2, d)])
      (idxFrom 0 l₁ ++ ((l₁.length : ℚ), r) ::
        ((l₁.length : ℚ) + 1 / 2, d) :: idxFrom ((l₁.length : ℚ) + 1) l₂) := by
    rw [hit, List.append_assoc, List.cons_append]
    exact List.Perm.append_left _
      (List.Perm.cons _ (List.perm_append_singleton _ _))
  have hsort := sortByIdx_eq_of_target hperm hsorted_t
  unfold upsertRecord
  rw [hfil, hmax]
  dsimp only
  rw [hsort, List.map_append, idxFrom_map_snd, List.map_cons, List.map_cons,
    idxFrom_map_snd]

theorem stampDate_Inventory (d0 : VRec) (da : Bool) (today : String) :
    (stampDate d0 da today).Inventory = d0.Inventory := by
  cases da <;> simp [stampDate]

theorem stampDate_Year (d0 : VRec) (da : Bool) (today : String) :
    (stampDate d0 da today).Year = d0.Year := by
  cases da <;> simp [stampDate]

/-- Claim C9: the provenance-ledger upsert.  When a record matching the
new record's `(Inventory, Year)` exists, the (date-stamped) new record
replaces it at the same relative position among all records; when none
exists, the new record is inserted immediately after the last existing
record sharing the same `Inventory` name; in both cases the table is
re-sorted by its row order before being persisted. -/
theorem update_validationsets_sources_spec (d0 : VRec) (da : Bool) (today : String)
    (l₁ l₂ : List VRec) (r : VRec) :
    ((r.Inventory = d0.Inventory ∧ r.Year = d0.Year) →
      (∀ x, x ∈ l₁ ∨ x ∈ l₂ → ¬(x.Inventory = d0.Inventory ∧ x.Year = d0.Year)) →
      update_validationsets_sources d0 da today (l₁ ++ r :: l₂) =
        some (l₁ ++ stampDate d0 da today :: l₂)) ∧
    (r.Inventory = d0.Inventory →
      (∀ x ∈ l₂, x.Inventory ≠ d0.Inventory) →
      (∀ x, x ∈ l₁ ∨ x = r ∨ x ∈ l₂ →
        ¬(x.Inventory = d0.Inventory ∧ x.Year = d0.Year)) →
      update_validationsets_sources d0 da today (l₁ ++ r :: l₂) =
        some (l₁ ++ r :: stampDate d0 da today :: l₂)) := by
  have hI := stampDate_Inventory d0 da today
  have hY := stampDate_Year d0 da today
  constructor
  · intro hmatch hothers
    unfold update_validationsets_sources
    exact upsertRecord_replace _ r l₁ l₂ (by rw [hI, hY]; exact hmatch)
      (fun x hx => by rw [hI, hY]; exact hothers x hx)
  · intro hrInv hl₂ hnone
    unfold update_validationsets_sources
    exact upsertRecord_insert _ r l₁ l₂ (by rw [hI]; exact hrInv)
      (fun x hx => by rw [hI]; exact hl₂ x hx)
      (fun x hx => by rw [hI, hY]; exact hnone x hx)

/-- Witness for claim C9: one concrete in-place replacement of the
`(TRI, 2016)` record, and one concrete insertion of a `(TRI, 2017)` record
immediately after the last TRI row. -/
theorem update_validationsets_sources_spec_witness :
    update_validationsets_sources ⟨"TRI", "v2", "2016", "n2", "u2", "c2", "d2"⟩
        true "" ([⟨"NEI", "v", "2017", "n", "u", "c", "dd"⟩] ++
          ⟨"TRI", "v1", "2016", "n", "u", "c", "d"⟩ ::
          [⟨"EGR", "v", "2016", "n", "u", "c", "dd"⟩]) =
      some ([⟨"NEI", "v", "2017", "n", "u", "c", "dd"⟩] ++
        stampDate ⟨"TRI", "v2", "2016", "n2", "u2", "c2", "d2"⟩ true "" ::
          [⟨"EGR", "v", "2016", "n", "u", "c", "dd"⟩]) ∧
    update_validationsets_sources ⟨"TRI", "v1", "2017", "n3", "u3", "c3", "d3"⟩
        true "" ([⟨"NEI", "v", "2017", "n", "u", "c", "dd"⟩] ++
          ⟨"TRI", "v1", "2016", "n", "u", "c", "d"⟩ ::
          [⟨"EGR", "v", "2016", "n", "u", "c", "dd"⟩]) =
      some ([⟨"NEI", "v", "2017", "n", "u", "c", "dd"⟩] ++
        ⟨"TRI", "v1", "2016", "n", "u", "c", "d"⟩ ::
          stampDate ⟨"TRI", "v1", "2017", "n3", "u3", "c3", "d3"⟩ true "" ::
            [⟨"EGR", "v", "2016", "n", "u", "c", "dd"⟩]) := by
  constructor
  · refine (update_validationsets_sources_spec _ true "" _ _ _).1 (by decide) ?_
    intro x hx
    rcases hx with hx | hx <;> rw [List.mem_singleton] at hx <;> subst hx <;> decide
  · refine (update_validationsets_sources_spec _ true "" _ _ _).2 (by decide) ?_ ?_
    · intro x hx
      rw [List.mem_singleton] at hx
      subst hx
      decide
    · intro x hx
      rcases hx with hx | hx | hx
      · rw [List.mem_singleton] at hx; subst hx; decide
      · subst hx; decide
      · rw [List.mem_singleton] at hx; subst hx; decide
